import Mathlib

/-!
Verification development for two MIR components:

* `compiler/rustc_mir_transform/src/coroutine/by_move_body.rs` — the
  `ByMoveBody` pass: capture matching between a coroutine-closure's parent
  capture list and its child coroutine's capture list, and the place-rewrite
  producing the by-move body.
* `src/librustc/mir/visit.rs` — the MIR visitor framework: the default
  structural traversal (`super_mir`, `super_basic_block_data`) and the
  `PlaceContext` classification predicates.

Rust data types are embedded as Lean inductives/structures; functions that
can hit `bug!`/`assert!`/`unreachable!` return `Except MirError _`, each
fatal site getting its own error constructor.
-/

/-- `rustc_middle::mir::Mutability` (also `hir::Mutability`): `Not | Mut`. -/
inductive Mutability where
  | not
  | mut
deriving DecidableEq, Repr

/-- Types, kept abstract: a base type tag, or a reference type as built by
`Ty::new_ref(tcx, re_erased, ty, mutbl)` (regions are erased in the pass, so
the embedding records only the mutability and the referent). -/
inductive Ty where
  | base (tag : Nat)
  | ref (mutbl : Mutability) (pointee : Ty)
deriving DecidableEq, Repr

/-- `rustc_middle::ty::BorrowKind` as used by upvar captures:
`ImmBorrow | UniqueImmBorrow | MutBorrow`. -/
inductive TyBorrowKind where
  | immBorrow
  | uniqueImmBorrow
  | mutBorrow
deriving DecidableEq, Repr

/-- `ty::BorrowKind::to_mutbl_lossy`: `ImmBorrow => Not`,
`UniqueImmBorrow => Mut` (lossy over-approximation), `MutBorrow => Mut`. -/
def TyBorrowKind.toMutblLossy : TyBorrowKind → Mutability
  | .immBorrow => .not
  | .uniqueImmBorrow => .mut
  | .mutBorrow => .mut

/-- `rustc_middle::hir::place::ProjectionKind`. A `Field` carries the field
index and the variant index; the kind is what capture matching compares. -/
inductive ProjectionKind where
  | deref
  | field (fieldIdx : Nat) (variantIdx : Nat)
  | index
  | subslice
deriving DecidableEq, Repr

/-- `rustc_middle::hir::place::Projection`: the type of the place after this
projection, and the projection kind. -/
structure Projection where
  ty : Ty
  kind : ProjectionKind
deriving DecidableEq, Repr

/-- `rustc_middle::hir::place::PlaceBase::Upvar`: the matching loop only ever
sees upvar-based captures (`closure_captures` yields upvars; the code `bug!`s
on any other base), so the base is embedded as the owning variable's HIR id. -/
structure PlaceBase where
  hirId : Nat
deriving DecidableEq, Repr

/-- `rustc_middle::hir::place::Place`: a base, the base's type, and the
ordered projection sequence. -/
structure HirPlace where
  base : PlaceBase
  baseTy : Ty
  projections : List Projection
deriving DecidableEq, Repr

/-- `hir::place::Place::ty()`: the type of the last projection, or the base
type when there are no projections. -/
def HirPlace.ty (p : HirPlace) : Ty :=
  match p.projections.getLast? with
  | some pr => pr.ty
  | none => p.baseTy

/-- `rustc_middle::ty::UpvarCapture`: `ByValue | ByRef(BorrowKind)`. -/
inductive UpvarCapture where
  | byValue
  | byRef (kind : TyBorrowKind)
deriving DecidableEq, Repr

/-- `rustc_middle::ty::CaptureInfo` (the field the pass reads). -/
structure CaptureInfo where
  captureKind : UpvarCapture
deriving DecidableEq, Repr

/-- `rustc_middle::ty::CapturedPlace` (the fields the pass reads). -/
structure CapturedPlace where
  place : HirPlace
  info : CaptureInfo
deriving DecidableEq, Repr

/-- `CapturedPlace::is_by_ref`: true iff the capture kind is `ByRef(..)`. -/
def CapturedPlace.isByRef (c : CapturedPlace) : Bool :=
  match c.info.captureKind with
  | .byValue => false
  | .byRef _ => true

/-- Every fatal site of the pass (`bug!`, `assert!`, `assert_eq!`,
`assert_ne!`, `assert_matches!`, `unreachable!`) gets one constructor. -/
inductive MirError where
  | childShorterThanParent
  | ranOutOfParentCaptures
  | parentCaptureUnused
  | leftoverParentCaptures
  | fnOnceNeedsDeref
  | remapLenMismatch
  | upvarMissingDeref
  | finalDerefNotDeref
  | preciseCaptureBadKind
deriving DecidableEq, Repr

/-- `ty::ClosureKind`: `Fn | FnMut | FnOnce`. -/
inductive ClosureKind where
  | fn
  | fnMut
  | fnOnce
deriving DecidableEq, Repr

/-- `child_prefix_matches_parent_projections` in `by_move_body.rs`: the
`assert!` that the child has at least as many projections as the parent is
the error case; otherwise the captures match iff the owning variables' HIR
ids agree and zipping the two projection lists, every paired `kind` agrees. -/
def child_prefix_matches_parent_projections
    (parent_capture child_capture : CapturedPlace) : Except MirError Bool :=
  if parent_capture.place.projections.length ≤ child_capture.place.projections.length then
    .ok (parent_capture.place.base.hirId == child_capture.place.base.hirId &&
      (child_capture.place.projections.zip parent_capture.place.projections).all
        (fun pr => pr.1.kind == pr.2.kind))
  else
    .error .childShorterThanParent

/-- The value recorded in `field_remapping` for one child field index: the
key (`child_field_idx + num_args`) and the quadruple `(parent_field_idx +
num_args, parent_capture_ty, needs_deref, child_precise_captures)`. -/
structure RemapEntry where
  childFieldIdx : Nat
  parentFieldIdx : Nat
  parentTy : Ty
  needsDeref : Bool
  extraProjections : List Projection
deriving DecidableEq, Repr

/-- The `parent_capture_ty` computation of `ByMoveBody::run_pass`: the parent
capture's place type, wrapped in a reference whose mutability is
`kind.to_mutbl_lossy()` when the parent captures `ByRef(kind)`. -/
def parentCaptureEffectiveTy (parent_capture : CapturedPlace) : Ty :=
  match parent_capture.info.captureKind with
  | .byValue => parent_capture.place.ty
  | .byRef kind => Ty.ref kind.toMutblLossy parent_capture.place.ty

/-- The inner `loop` of `ByMoveBody::run_pass` (lines 147-208) for one child
capture: peek the current parent capture (`bug!` when the cursor is
exhausted); on a non-match the current parent must have been marked used
(`assert!`), the cursor advances and the flag resets; on a match,
`needs_deref` under `FnOnce` is fatal (`assert_ne!`), and otherwise the
remapping value for this child is produced and the cursor stays put (the
`break`). Returns the recorded entry together with the parent cursor's
remaining list; the caller sets `field_used_at_least_once`. -/
def matchChildLoop (kind : ClosureKind) (numArgs : Nat) (childFieldIdx : Nat)
    (childCapture : CapturedPlace) (used : Bool) :
    List (Nat × CapturedPlace) →
      Except MirError (RemapEntry × List (Nat × CapturedPlace))
  | [] => .error .ranOutOfParentCaptures
  | (parentFieldIdx, parentCapture) :: restParents =>
    match child_prefix_matches_parent_projections parentCapture childCapture with
    | .error e => .error e
    | .ok false =>
      if used then
        matchChildLoop kind numArgs childFieldIdx childCapture false restParents
      else
        .error .parentCaptureUnused
    | .ok true =>
      let needsDeref := childCapture.isByRef && !parentCapture.isByRef
      if needsDeref && kind == ClosureKind.fnOnce then
        .error .fnOnceNeedsDeref
      else
        .ok (⟨childFieldIdx + numArgs, parentFieldIdx + numArgs,
              parentCaptureEffectiveTy parentCapture, needsDeref,
              childCapture.place.projections.drop
                parentCapture.place.projections.length⟩,
          (parentFieldIdx, parentCapture) :: restParents)

/-- The capture-matching `for` loop of `ByMoveBody::run_pass` (lines
139-215) followed by the post-loop checks. `parents` is the enumerated
parent capture list still ahead of the peekable cursor, `used` is
`field_used_at_least_once`, the last argument the enumerated child captures
still to process (the caller has already skipped `num_args` of them). After
the last child: when the flag is set the current parent is popped
(`.unwrap()`, whose impossible empty case is mapped to
`ranOutOfParentCaptures` for totality), and any leftover parent capture is
fatal (`assert_eq!`). -/
def matchCaptures (kind : ClosureKind) (numArgs : Nat)
    (parents : List (Nat × CapturedPlace)) (used : Bool) :
    List (Nat × CapturedPlace) → Except MirError (List RemapEntry)
  | [] =>
    if used then
      match parents with
      | [] => .error .ranOutOfParentCaptures
      | _ :: rest =>
        if rest.isEmpty then .ok [] else .error .leftoverParentCaptures
    else
      match parents with
      | [] => .ok []
      | _ :: _ => .error .leftoverParentCaptures
  | (childFieldIdx, childCapture) :: restChildren =>
    match matchChildLoop kind numArgs childFieldIdx childCapture used parents with
    | .error e => .error e
    | .ok (entry, parents') =>
      match matchCaptures kind numArgs parents' true restChildren with
      | .error e => .error e
      | .ok rest => .ok (entry :: rest)

/-- `ty::CAPTURE_STRUCT_LOCAL`: the local holding the capture aggregate
(the first argument, local `_1`). -/
def CAPTURE_STRUCT_LOCAL : Nat := 1

/-- `rustc_middle::mir::ProjectionElem` (the variants of the embedded MIR
place grammar; `Field` carries the projected type). -/
inductive MirProjElem where
  | deref
  | field (fieldIdx : Nat) (ty : Ty)
  | index (localIdx : Nat)
  | constantIndex (offset : Nat) (minLength : Nat) (fromEnd : Bool)
  | subslice (fromIdx : Nat) (toIdx : Nat)
  | downcast (variantIdx : Nat)
deriving DecidableEq, Repr

/-- `rustc_middle::mir::Place`: a base local (`place.local`) and the
projection list. -/
structure MirPlace where
  localIdx : Nat
  projection : List MirProjElem
deriving DecidableEq, Repr

/-- `field_remapping.get(&idx)`: the map is keyed by the child field index. -/
def fieldRemappingGet (fr : List RemapEntry) (idx : Nat) : Option RemapEntry :=
  fr.find? (fun e => e.childFieldIdx == idx)

/-- The per-element translation of `additional_projections` in
`MakeByMoveBody::visit_place`: a precise-capture projection becomes `Deref`
or `Field(idx, elem.ty)` (only for variant index zero, `VariantIdx::ZERO`);
any other kind is the `unreachable!` arm. -/
def mapExtraProjection (elem : Projection) : Except MirError MirProjElem :=
  match elem.kind with
  | .deref => .ok MirProjElem.deref
  | .field idx 0 => .ok (MirProjElem.field idx elem.ty)
  | _ => .error .preciseCaptureBadKind

/-- The `final_deref` binding of `MakeByMoveBody::visit_place`: when
`needs_deref`, the next original projection must be exactly one `Deref`
(`bug!` otherwise) and it is peeled off; otherwise the suffix is kept. -/
def peelDeref (needsDeref : Bool) (projection : List MirProjElem) :
    Except MirError (List MirProjElem) :=
  if needsDeref then
    match projection with
    | MirProjElem.deref :: rest => .ok rest
    | _ => .error .upvarMissingDeref
  else
    .ok projection

/-- `MakeByMoveBody::visit_place` (lines 272-335), as the transformation it
performs on one place. A place whose local is `CAPTURE_STRUCT_LOCAL`, whose
first projection is a `Field(idx, _)`, and whose `idx` is in
`field_remapping`, is rebuilt as `Field(remapped_idx, remapped_ty)`, then the
re-applied `additional_projections`, then `final_deref` (the original suffix
after peeling one `Deref` when `needs_deref`). Fatal sites: a `needs_deref`
entry whose next original projection is not a `Deref` (`bug!`), a peeled
suffix that is neither `[]` nor `[Deref]` (`assert_matches!`), and a bad
precise-capture projection kind (`unreachable!`). Every other place is
returned unchanged. -/
def rewritePlace (fr : List RemapEntry) (place : MirPlace) : Except MirError MirPlace :=
  if place.localIdx = CAPTURE_STRUCT_LOCAL then
    match place.projection with
    | MirProjElem.field idx _ :: projection =>
      match fieldRemappingGet fr idx with
      | some entry =>
        match peelDeref entry.needsDeref projection with
        | .error e => .error e
        | .ok finalDeref =>
          if finalDeref = [] ∨ finalDeref = [MirProjElem.deref] then
            match entry.extraProjections.mapM mapExtraProjection with
            | .error e => .error e
            | .ok additionalProjections =>
              .ok ⟨place.localIdx,
                MirProjElem.field entry.parentFieldIdx entry.parentTy ::
                  (additionalProjections ++ finalDeref)⟩
          else
            .error .finalDerefNotDeref
      | none => .ok place
    | _ => .ok place
  else
    .ok place

/-- `rustc_middle::mir::Operand`: `Copy | Move | Constant`. -/
inductive MirOperand where
  | copy (place : MirPlace)
  | move (place : MirPlace)
  | constant (tag : Nat)
deriving DecidableEq, Repr

/-- A representative fragment of `rustc_middle::mir::Rvalue`. -/
inductive MirRvalue where
  | use (op : MirOperand)
  | ref (mutbl : Mutability) (place : MirPlace)
  | binaryOp (lhs rhs : MirOperand)
deriving DecidableEq, Repr

/-- A representative fragment of `rustc_middle::mir::StatementKind`. -/
inductive MirStmt where
  | assign (place : MirPlace) (rvalue : MirRvalue)
  | storageLive (localIdx : Nat)
  | storageDead (localIdx : Nat)
  | nop
deriving DecidableEq, Repr

/-- A representative fragment of `rustc_middle::mir::TerminatorKind`. -/
inductive MirTerm where
  | goto (target : Nat)
  | drop (place : MirPlace) (target : Nat)
  | ret
deriving DecidableEq, Repr

/-- One basic block: statements and an optional terminator. -/
structure MirBlock where
  statements : List MirStmt
  terminator : Option MirTerm
deriving DecidableEq, Repr

/-- A MIR body: local declarations (their types) and the basic blocks. -/
structure MirBody where
  localDecls : List Ty
  blocks : List MirBlock
deriving DecidableEq, Repr

/-- The `MutVisitor` traversal of `MakeByMoveBody` restricted to an operand:
only the place inside is rewritten. -/
def rewriteOperand (fr : List RemapEntry) : MirOperand → Except MirError MirOperand
  | .copy place => (rewritePlace fr place).map MirOperand.copy
  | .move place => (rewritePlace fr place).map MirOperand.move
  | .constant tag => .ok (MirOperand.constant tag)

/-- The traversal restricted to an rvalue. -/
def rewriteRvalue (fr : List RemapEntry) : MirRvalue → Except MirError MirRvalue
  | .use op => (rewriteOperand fr op).map MirRvalue.use
  | .ref mutbl place => (rewritePlace fr place).map (MirRvalue.ref mutbl)
  | .binaryOp lhs rhs => do
    let lhs' ← rewriteOperand fr lhs
    let rhs' ← rewriteOperand fr rhs
    .ok (MirRvalue.binaryOp lhs' rhs')

/-- The traversal restricted to a statement: only places are rewritten, the
statement's own structure is rebuilt unchanged. -/
def rewriteStmt (fr : List RemapEntry) : MirStmt → Except MirError MirStmt
  | .assign place rvalue => do
    let place' ← rewritePlace fr place
    let rvalue' ← rewriteRvalue fr rvalue
    .ok (MirStmt.assign place' rvalue')
  | .storageLive l => .ok (MirStmt.storageLive l)
  | .storageDead l => .ok (MirStmt.storageDead l)
  | .nop => .ok MirStmt.nop

/-- The traversal restricted to a terminator. -/
def rewriteTerm (fr : List RemapEntry) : MirTerm → Except MirError MirTerm
  | .goto target => .ok (MirTerm.goto target)
  | .drop place target => (rewritePlace fr place).map (fun p => MirTerm.drop p target)
  | .ret => .ok MirTerm.ret

/-- The traversal restricted to an optional terminator (the visitor's
`if let Some(terminator) = terminator` step). -/
def rewriteOptTerm (fr : List RemapEntry) : Option MirTerm → Except MirError (Option MirTerm)
  | some t => (rewriteTerm fr t).map some
  | none => .ok none

/-- The traversal restricted to a basic block. -/
def rewriteBlock (fr : List RemapEntry) (b : MirBlock) : Except MirError MirBlock := do
  let statements ← b.statements.mapM (rewriteStmt fr)
  let terminator ← rewriteOptTerm fr b.terminator
  .ok ⟨statements, terminator⟩

/-- `MakeByMoveBody::visit_local_decl`: only the capture-aggregate local's
declared type is replaced, by `by_move_coroutine_ty`. -/
def rewriteLocalDecls (byMoveTy : Ty) (decls : List Ty) : List Ty :=
  decls.enum.map (fun li => if li.1 = CAPTURE_STRUCT_LOCAL then byMoveTy else li.2)

/-- `MakeByMoveBody.visit_body` over the embedded body: every place rewritten
through `rewritePlace`, every local declaration through `visit_local_decl`,
all other structure rebuilt unchanged. -/
def rewriteBody (fr : List RemapEntry) (byMoveTy : Ty) (b : MirBody) :
    Except MirError MirBody := do
  let blocks ← b.blocks.mapM (rewriteBlock fr)
  .ok ⟨rewriteLocalDecls byMoveTy b.localDecls, blocks⟩

/-- The inputs `ByMoveBody::run_pass` draws from the `tcx` and the body,
already resolved: the three early-exit tests, the coroutine's closure kind
(`args.kind_ty().to_opt_closure_kind().unwrap()`), the argument count of the
parent closure signature, the two capture lists, the computed
`by_move_coroutine_ty`, and the MIR body. -/
structure PassInput where
  isClosureDesugaredCoroutine : Bool
  coroutineTyReferencesError : Bool
  isCoroutineKindShim : Bool
  coroutineKind : ClosureKind
  numArgs : Nat
  parentCaptures : List CapturedPlace
  childCaptures : List CapturedPlace
  byMoveCoroutineTy : Ty
  body : MirBody
deriving Repr

/-- The three early exits of `ByMoveBody::run_pass` (lines 83-106): not a
coroutine desugared from a coroutine-closure, a capture-aggregate type with
errors, or a body already produced by the `CoroutineKindShim`. -/
def passEarlyExit (inp : PassInput) : Bool :=
  !inp.isClosureDesugaredCoroutine || inp.coroutineTyReferencesError ||
    inp.isCoroutineKindShim

/-- `ByMoveBody::run_pass`: early exits return the body unchanged with no
by-move body; then the matching loop runs over the enumerated parent captures
and the enumerated child captures past the first `num_args`; under `FnOnce`
the remapping must cover every parent capture (`assert_eq!`) and no by-move
body is produced; otherwise the body is cloned and rewritten, and the clone
is attached as the by-move body. The result pairs the (unchanged) original
body with the optional by-move body. -/
def runPass (inp : PassInput) : Except MirError (MirBody × Option MirBody) :=
  if passEarlyExit inp then
    .ok (inp.body, none)
  else
    match matchCaptures inp.coroutineKind inp.numArgs inp.parentCaptures.enum false
        ((inp.childCaptures.drop inp.numArgs).enum) with
    | .error e => .error e
    | .ok fieldRemapping =>
      if inp.coroutineKind == ClosureKind.fnOnce then
        if fieldRemapping.length == inp.parentCaptures.length then
          .ok (inp.body, none)
        else
          .error .remapLenMismatch
      else
        match rewriteBody fieldRemapping inp.byMoveCoroutineTy inp.body with
        | .error e => .error e
        | .ok byMoveBody => .ok (inp.body, some byMoveBody)

/-! ## The visitor framework of `src/librustc/mir/visit.rs` -/

/-- A statement of the old MIR, abstracted: `super_basic_block_data` never
looks inside a statement, it only dispatches on the list. -/
structure StatementV where
  tag : Nat
deriving DecidableEq, Repr

/-- A terminator, likewise abstract. -/
structure TerminatorV where
  tag : Nat
deriving DecidableEq, Repr

/-- `mir::BasicBlockData`: statements, optional terminator, `is_cleanup`
(destructured but not visited by the traversal). -/
structure BasicBlockDataV where
  statements : List StatementV
  terminator : Option TerminatorV
  isCleanup : Bool
deriving DecidableEq, Repr

/-- `mir::VisibilityScopeData`: a span and an optional parent scope. -/
structure VisibilityScopeDataV where
  span : Nat
  parentScope : Option Nat
deriving DecidableEq, Repr

/-- The fields of `mir::Mir` that `super_mir` traverses. -/
structure MirV where
  basicBlocks : List BasicBlockDataV
  visibilityScopes : List VisibilityScopeDataV
  returnTy : Ty
  localDecls : List Ty
  span : Nat
deriving DecidableEq, Repr

/-- One `visit_*` invocation the default traversal performs, recorded with
the arguments that identify the visited child (for statements and
terminators, the `Location`'s `statement_index`). -/
inductive VisitEvent where
  | visitBasicBlockData (block : Nat)
  | visitStatement (block : Nat) (statementIndex : Nat)
  | visitTerminator (block : Nat) (statementIndex : Nat)
  | visitVisibilityScopeData (scopeIdx : Nat)
  | visitReturnTy
  | visitLocalDecl (localIdx : Nat)
  | visitSpan
deriving DecidableEq, Repr

/-- The statement loop of `super_basic_block_data`: `index` starts at 0, each
statement is visited at `Location { block, statement_index: index }`, and
`index` is incremented; the final `index` is returned for the terminator's
location. -/
def visitBlockStatements (block : Nat) (index : Nat) :
    List StatementV → List VisitEvent × Nat
  | [] => ([], index)
  | _ :: rest =>
    let r := visitBlockStatements block (index + 1) rest
    (VisitEvent.visitStatement block index :: r.1, r.2)

/-- `super_basic_block_data` (lines 307-327): destructures statements,
terminator and `is_cleanup`, visits every statement in index order, then the
terminator (when present) at `statement_index` equal to the final loop
index. -/
def super_basic_block_data_trace (block : Nat) (data : BasicBlockDataV) :
    List VisitEvent :=
  let r := visitBlockStatements block 0 data.statements
  r.1 ++
    (match data.terminator with
     | some _ => [VisitEvent.visitTerminator block r.2]
     | none => [])

/-- The `iter_enumerated` loop over basic blocks in `super_mir`: each block
gets its `visit_basic_block_data` call (one event), whose default behavior is
`super_basic_block_data`. -/
def visitBlocksTrace (blockIdx : Nat) : List BasicBlockDataV → List VisitEvent
  | [] => []
  | data :: rest =>
    (VisitEvent.visitBasicBlockData blockIdx ::
        super_basic_block_data_trace blockIdx data) ++
      visitBlocksTrace (blockIdx + 1) rest

/-- The loop over `mir.visibility_scopes` in `super_mir`. -/
def visitScopesTrace (scopeIdx : Nat) : List VisibilityScopeDataV → List VisitEvent
  | [] => []
  | _ :: rest => VisitEvent.visitVisibilityScopeData scopeIdx :: visitScopesTrace (scopeIdx + 1) rest

/-- The loop over `mir.local_decls.indices()` in `super_mir`. -/
def visitLocalDeclsTrace (localIdx : Nat) : List Ty → List VisitEvent
  | [] => []
  | _ :: rest => VisitEvent.visitLocalDecl localIdx :: visitLocalDeclsTrace (localIdx + 1) rest

/-- `super_mir` (lines 278-305): every basic block, every visibility scope,
the return type, every local declaration, and the span, in that order. -/
def super_mir_trace (mir : MirV) : List VisitEvent :=
  visitBlocksTrace 0 mir.basicBlocks ++
    visitScopesTrace 0 mir.visibilityScopes ++
    [VisitEvent.visitReturnTy] ++
    visitLocalDeclsTrace 0 mir.localDecls ++
    [VisitEvent.visitSpan]

/-- `mir::BorrowKind` of the old MIR: `Shared | Unique | Mut`. -/
inductive MirBorrowKind where
  | shared
  | unique
  | mutBorrow
deriving DecidableEq, Repr

/-- `PlaceContext` (lines 833-875), parametric in the region type `ρ` exactly
as the Rust enum is in `'tcx`: `Borrow` carries its region and borrow kind,
`Projection` its mutability. -/
inductive PlaceContextV (ρ : Type) where
  | store
  | call
  | drop
  | inspect
  | borrow (region : ρ) (kind : MirBorrowKind)
  | projection (mutbl : Mutability)
  | copy
  | move
  | storageLive
  | storageDead
  | validate

/-- `PlaceContext::is_mutating_use` (lines 911-925): store, call destination,
mutable borrow, mutating projection base, drop. -/
def PlaceContextV.is_mutating_use {ρ : Type} : PlaceContextV ρ → Bool
  | .store | .call
  | .borrow _ .mutBorrow
  | .projection .mut
  | .drop => true
  | .inspect
  | .borrow _ .shared
  | .borrow _ .unique
  | .projection .not
  | .copy | .move
  | .storageLive | .storageDead
  | .validate => false

/-- `PlaceContext::is_nonmutating_use` (lines 928-939): inspect, shared or
unique borrow, non-mutating projection base, copy, move. -/
def PlaceContextV.is_nonmutating_use {ρ : Type} : PlaceContextV ρ → Bool
  | .inspect
  | .borrow _ .shared
  | .borrow _ .unique
  | .projection .not
  | .copy | .move => true
  | .borrow _ .mutBorrow | .store
  | .call | .projection .mut
  | .drop | .storageLive | .storageDead
  | .validate => false

/-! ## C1: the matching predicate -/

/-- The spec's wording of the matching condition (§4.3 step 2), written
independently of the code: same owning variable identity, and the parent's
projection kinds are exactly the first `len(parent)` projection kinds of the
child. -/
def specKindwiseMatch (parent_capture child_capture : CapturedPlace) : Prop :=
  parent_capture.place.base.hirId = child_capture.place.base.hirId ∧
    (child_capture.place.projections.map Projection.kind).take
        parent_capture.place.projections.length =
      parent_capture.place.projections.map Projection.kind

theorem zip_kind_all_iff_take :
    ∀ (cs ps : List Projection), ps.length ≤ cs.length →
      ((((cs.zip ps).all fun pr => pr.1.kind == pr.2.kind) = true) ↔
        (cs.map Projection.kind).take ps.length = ps.map Projection.kind) := by
  intro cs
  induction cs with
  | nil =>
    intro ps h
    have hps : ps = [] := List.eq_nil_of_length_eq_zero (Nat.le_zero.mp h)
    subst hps
    simp
  | cons c ct ih =>
    intro ps h
    cases ps with
    | nil => simp
    | cons p pt =>
      have h' : pt.length ≤ ct.length := by
        simpa [Nat.succ_le_succ_iff] using h
      simp only [List.zip_cons_cons, List.all_cons, Bool.and_eq_true, beq_iff_eq,
        List.map_cons, List.length_cons, List.take_succ_cons, List.cons.injEq]
      exact and_congr Iff.rfl (ih pt h')

/-- C1 (confirmed). For a parent/child pair considered by the matching loop
(the child's projection list is at least as long as the parent's, which the
code asserts), `child_prefix_matches_parent_projections` answers `true`
exactly when both captures reference the same owning variable identity and
the parent's projection kinds (field indices included, since a `Field` kind
carries its index) are position-by-position the leading kinds of the child's
projection path. -/
theorem matching_iff_same_var_and_kindwise_prefix
    (parent_capture child_capture : CapturedPlace)
    (h : parent_capture.place.projections.length ≤
      child_capture.place.projections.length) :
    child_prefix_matches_parent_projections parent_capture child_capture = .ok true ↔
      specKindwiseMatch parent_capture child_capture := by
  rw [child_prefix_matches_parent_projections, if_pos h]
  rw [show (Except.ok (ε := MirError)
      (parent_capture.place.base.hirId == child_capture.place.base.hirId &&
        (child_capture.place.projections.zip parent_capture.place.projections).all
          fun pr => pr.1.kind == pr.2.kind) = Except.ok true) ↔
      ((parent_capture.place.base.hirId == child_capture.place.base.hirId &&
        (child_capture.place.projections.zip parent_capture.place.projections).all
          fun pr => pr.1.kind == pr.2.kind) = true) from
    ⟨fun hh => by injection hh, fun hh => by rw [hh]⟩]
  rw [Bool.and_eq_true, beq_iff_eq]
  exact and_congr Iff.rfl (zip_kind_all_iff_take _ _ h)

def c1WitParent : CapturedPlace := ⟨⟨⟨3⟩, Ty.base 20, []⟩, ⟨.byValue⟩⟩

def c1WitChild : CapturedPlace :=
  ⟨⟨⟨3⟩, Ty.base 20, [⟨Ty.base 21, .field 0 0⟩]⟩, ⟨.byRef .immBorrow⟩⟩

/-- Witness for C1 at a concrete precise-capture pair: the parent captures
the whole variable, the child one field of it. -/
theorem matching_iff_same_var_and_kindwise_prefix_witness :
    child_prefix_matches_parent_projections c1WitParent c1WitChild = .ok true ↔
      specKindwiseMatch c1WitParent c1WitChild :=
  matching_iff_same_var_and_kindwise_prefix c1WitParent c1WitChild (by decide)

/-! ## C8: the `PlaceContext` classification -/

/-- The spec's "mutating use" table (§4.2): store, call destination, mutable
borrow, mutating projection base, drop. -/
def specMutatingUse {ρ : Type} (c : PlaceContextV ρ) : Prop :=
  c = .store ∨ c = .call ∨ (∃ r, c = .borrow r .mutBorrow) ∨
    c = .projection .mut ∨ c = .drop

/-- The spec's "non-mutating use" table (§4.2): inspect, shared or unique
borrow, non-mutating projection base, copy, move. -/
def specNonmutatingUse {ρ : Type} (c : PlaceContextV ρ) : Prop :=
  c = .inspect ∨ (∃ r, c = .borrow r .shared) ∨ (∃ r, c = .borrow r .unique) ∨
    c = .projection .not ∨ c = .copy ∨ c = .move

/-- The spec's "neither" table (§4.2): storage-liveness start and end, and
validation. -/
def specNeitherUse {ρ : Type} (c : PlaceContextV ρ) : Prop :=
  c = .storageLive ∨ c = .storageDead ∨ c = .validate

/-- C8 (confirmed). The classification predicates are total (they are
functions over the whole `PlaceContext` enumeration) and disjoint: no context
satisfies both, `is_mutating_use` holds exactly on the spec's mutating table,
`is_nonmutating_use` exactly on the non-mutating table, and exactly the
storage-liveness and validation contexts satisfy neither. -/
theorem place_context_classification_total_disjoint {ρ : Type}
    (c : PlaceContextV ρ) :
    (c.is_mutating_use && c.is_nonmutating_use) = false ∧
      (c.is_mutating_use = true ↔ specMutatingUse c) ∧
      (c.is_nonmutating_use = true ↔ specNonmutatingUse c) ∧
      ((c.is_mutating_use = false ∧ c.is_nonmutating_use = false) ↔
        specNeitherUse c) := by
  cases c with
  | borrow r kind =>
    cases kind <;>
      simp [PlaceContextV.is_mutating_use, PlaceContextV.is_nonmutating_use,
        specMutatingUse, specNonmutatingUse, specNeitherUse]
  | projection mutbl =>
    cases mutbl <;>
      simp [PlaceContextV.is_mutating_use, PlaceContextV.is_nonmutating_use,
        specMutatingUse, specNonmutatingUse, specNeitherUse]
  | _ =>
    simp [PlaceContextV.is_mutating_use, PlaceContextV.is_nonmutating_use,
      specMutatingUse, specNonmutatingUse, specNeitherUse]

/-! ## C3 and C10: the place rewrite -/

theorem peelDeref_ok (needsDeref : Bool) (projection finalDeref : List MirProjElem)
    (h : peelDeref needsDeref projection = .ok finalDeref) :
    (needsDeref = true → projection = MirProjElem.deref :: finalDeref) ∧
      (needsDeref = false → projection = finalDeref) := by
  cases needsDeref with
  | false =>
    simp [peelDeref] at h
    simp [h]
  | true =>
    cases projection with
    | nil => simp [peelDeref] at h
    | cons head tail =>
      cases head <;> simp [peelDeref] at h
      simp [h]

/-- C3 (confirmed). For a place rooted at the capture-aggregate local whose
leading projection is a remapped `Field(idx, _)`, a successful rewrite
replaces that leading field with `Field(parent_idx, parent_ty)`; when
`needs_deref` is set the next original projection is exactly one `Deref` and
that layer is removed; the re-expressed extra projections are spliced in
after the new leading field and before the remaining original suffix, which
is preserved unchanged. -/
theorem rewrite_remapped_place_shape (fr : List RemapEntry) (entry : RemapEntry)
    (idx : Nat) (ty0 : Ty) (rest : List MirProjElem) (place q : MirPlace)
    (hl : place.localIdx = CAPTURE_STRUCT_LOCAL)
    (hp : place.projection = MirProjElem.field idx ty0 :: rest)
    (hf : fieldRemappingGet fr idx = some entry)
    (hq : rewritePlace fr place = .ok q) :
    ∃ extra, entry.extraProjections.mapM mapExtraProjection = .ok extra ∧
      q.localIdx = place.localIdx ∧
      (entry.needsDeref = true →
        ∃ rest', rest = MirProjElem.deref :: rest' ∧
          q.projection = MirProjElem.field entry.parentFieldIdx entry.parentTy ::
            (extra ++ rest')) ∧
      (entry.needsDeref = false →
        q.projection = MirProjElem.field entry.parentFieldIdx entry.parentTy ::
          (extra ++ rest)) := by
  simp only [rewritePlace, hl, hp, hf, if_true] at hq
  split at hq
  · exact absurd hq (by simp)
  case _ finalDeref hpd =>
    split at hq
    case isTrue hc =>
      split at hq
      · exact absurd hq (by simp)
      case _ extra hmap =>
        injection hq with hq
        subst hq
        obtain ⟨hd1, hd2⟩ := peelDeref_ok entry.needsDeref rest finalDeref hpd
        refine ⟨extra, hmap, by simp [hl], ?_, ?_⟩
        · intro ht
          exact ⟨finalDeref, hd1 ht, by simp⟩
        · intro hfd
          simp [hd2 hfd]
    case isFalse hc =>
      exact absurd hq (by simp)

def c3Entry : RemapEntry := ⟨2, 5, Ty.base 42, true, [⟨Ty.base 7, .field 0 0⟩]⟩

def c3Fr : List RemapEntry := [c3Entry]

def c3Place : MirPlace :=
  ⟨1, [.field 2 (Ty.base 0), .deref, .deref]⟩

def c3Q : MirPlace :=
  ⟨1, [.field 5 (Ty.base 42), .field 0 (Ty.base 7), .deref]⟩

/-- Witness for C3: a concrete remapped place with `needs_deref` set, one
extra field projection, and a re-borrow deref suffix. -/
theorem rewrite_remapped_place_shape_witness :
    ∃ extra, c3Entry.extraProjections.mapM mapExtraProjection = .ok extra ∧
      c3Q.localIdx = c3Place.localIdx ∧
      (c3Entry.needsDeref = true →
        ∃ rest', [MirProjElem.deref, MirProjElem.deref] = MirProjElem.deref :: rest' ∧
          c3Q.projection = MirProjElem.field c3Entry.parentFieldIdx c3Entry.parentTy ::
            (extra ++ rest')) ∧
      (c3Entry.needsDeref = false →
        c3Q.projection = MirProjElem.field c3Entry.parentFieldIdx c3Entry.parentTy ::
          (extra ++ [MirProjElem.deref, MirProjElem.deref])) :=
  rewrite_remapped_place_shape c3Fr c3Entry 2 (Ty.base 0)
    [MirProjElem.deref, MirProjElem.deref] c3Place c3Q rfl rfl rfl rfl

/-- C10 (confirmed). For a place the rewrite retargets (rooted at the
capture-aggregate local with a remapped leading field), the rewrite succeeds
only when, after the leading field and (under `needs_deref`) exactly one
`Deref` are removed, the remaining original suffix is `[]` or exactly one
`Deref`; in particular a `needs_deref` entry whose next original projection
is not a `Deref`, or any longer or different remaining suffix, makes the
pass abort instead of preserving the suffix. -/
theorem rewrite_success_needs_small_suffix (fr : List RemapEntry)
    (entry : RemapEntry) (idx : Nat) (ty0 : Ty) (rest : List MirProjElem)
    (place : MirPlace)
    (hl : place.localIdx = CAPTURE_STRUCT_LOCAL)
    (hp : place.projection = MirProjElem.field idx ty0 :: rest)
    (hf : fieldRemappingGet fr idx = some entry)
    (hok : ∃ q, rewritePlace fr place = .ok q) :
    (entry.needsDeref = true →
      ∃ rest', rest = MirProjElem.deref :: rest' ∧
        (rest' = [] ∨ rest' = [MirProjElem.deref])) ∧
    (entry.needsDeref = false → (rest = [] ∨ rest = [MirProjElem.deref])) := by
  obtain ⟨q, hq⟩ := hok
  simp only [rewritePlace, hl, hp, hf, if_true] at hq
  split at hq
  · exact absurd hq (by simp)
  case _ finalDeref hpd =>
    split at hq
    case isTrue hc =>
      obtain ⟨hd1, hd2⟩ := peelDeref_ok entry.needsDeref rest finalDeref hpd
      refine ⟨fun ht => ⟨finalDeref, hd1 ht, hc⟩, fun hfd => ?_⟩
      rw [hd2 hfd]
      exact hc
    case isFalse hc =>
      exact absurd hq (by simp)

/-- Witness for C10: the concrete rewrite of the C3 witness succeeds, and its
suffix is one deref past the peeled layer. -/
theorem rewrite_success_needs_small_suffix_witness :
    (c3Entry.needsDeref = true →
      ∃ rest', [MirProjElem.deref, MirProjElem.deref] = MirProjElem.deref :: rest' ∧
        (rest' = [] ∨ rest' = [MirProjElem.deref])) ∧
    (c3Entry.needsDeref = false →
      ([MirProjElem.deref, MirProjElem.deref] = [] ∨
        [MirProjElem.deref, MirProjElem.deref] = [MirProjElem.deref])) :=
  rewrite_success_needs_small_suffix c3Fr c3Entry 2 (Ty.base 0)
    [MirProjElem.deref, MirProjElem.deref] c3Place rfl rfl rfl ⟨c3Q, rfl⟩

/-! ## C6: the rewrite is a frame outside the remapped capture places -/

/-- The trigger condition of `visit_place`'s rewriting branch, as a Boolean:
rooted at the capture-aggregate local with a leading `Field` projection whose
index is in the remapping table. -/
def placeIsRemappedRoot (fr : List RemapEntry) (place : MirPlace) : Bool :=
  place.localIdx == CAPTURE_STRUCT_LOCAL &&
    (match place.projection with
     | MirProjElem.field idx _ :: _ => (fieldRemappingGet fr idx).isSome
     | _ => false)

theorem rewritePlace_not_root (fr : List RemapEntry) (place : MirPlace)
    (h : placeIsRemappedRoot fr place = false) :
    rewritePlace fr place = .ok place := by
  obtain ⟨li, projs⟩ := place
  by_cases hl : li = CAPTURE_STRUCT_LOCAL
  · simp only [placeIsRemappedRoot, hl, beq_self_eq_true, Bool.true_and] at h
    cases projs with
    | nil => simp [rewritePlace, hl]
    | cons head tail =>
      cases head with
      | field idx ty =>
        simp only at h
        have hn : fieldRemappingGet fr idx = none := by
          cases hg : fieldRemappingGet fr idx with
          | none => rfl
          | some e => rw [hg] at h; simp at h
        simp [rewritePlace, hl, hn]
      | deref => simp [rewritePlace, hl]
      | index l => simp [rewritePlace, hl]
      | constantIndex a b c => simp [rewritePlace, hl]
      | subslice a b => simp [rewritePlace, hl]
      | downcast v => simp [rewritePlace, hl]
  · simp [rewritePlace, hl]

def operandPlaces : MirOperand → List MirPlace
  | .copy p => [p]
  | .move p => [p]
  | .constant _ => []

def rvaluePlaces : MirRvalue → List MirPlace
  | .use op => operandPlaces op
  | .ref _ p => [p]
  | .binaryOp lhs rhs => operandPlaces lhs ++ operandPlaces rhs

def stmtPlaces : MirStmt → List MirPlace
  | .assign p rv => p :: rvaluePlaces rv
  | .storageLive _ => []
  | .storageDead _ => []
  | .nop => []

def termPlaces : MirTerm → List MirPlace
  | .goto _ => []
  | .drop p _ => [p]
  | .ret => []

theorem rewriteOperand_not_root (fr : List RemapEntry) (o : MirOperand)
    (h : ∀ p ∈ operandPlaces o, placeIsRemappedRoot fr p = false) :
    rewriteOperand fr o = .ok o := by
  cases o with
  | copy p => simp [rewriteOperand, rewritePlace_not_root fr p (h p (by simp [operandPlaces])), Except.map]
  | move p => simp [rewriteOperand, rewritePlace_not_root fr p (h p (by simp [operandPlaces])), Except.map]
  | constant t => rfl

theorem rewriteRvalue_not_root (fr : List RemapEntry) (rv : MirRvalue)
    (h : ∀ p ∈ rvaluePlaces rv, placeIsRemappedRoot fr p = false) :
    rewriteRvalue fr rv = .ok rv := by
  cases rv with
  | use op =>
    simp [rvaluePlaces] at h
    simp [rewriteRvalue, rewriteOperand_not_root fr op h, Except.map]
  | ref m p =>
    simp [rvaluePlaces] at h
    simp [rewriteRvalue, rewritePlace_not_root fr p h, Except.map]
  | binaryOp lhs rhs =>
    simp [rvaluePlaces] at h
    rw [rewriteRvalue]
    rw [rewriteOperand_not_root fr lhs (fun p hp => h p (Or.inl hp)),
      rewriteOperand_not_root fr rhs (fun p hp => h p (Or.inr hp))]
    rfl

theorem rewriteStmt_not_root (fr : List RemapEntry) (s : MirStmt)
    (h : ∀ p ∈ stmtPlaces s, placeIsRemappedRoot fr p = false) :
    rewriteStmt fr s = .ok s := by
  cases s with
  | assign p rv =>
    simp [stmtPlaces] at h
    rw [rewriteStmt, rewritePlace_not_root fr p h.1,
      rewriteRvalue_not_root fr rv (fun q hq => h.2 q hq)]
    rfl
  | storageLive l => rfl
  | storageDead l => rfl
  | nop => rfl

theorem rewriteTerm_not_root (fr : List RemapEntry) (t : MirTerm)
    (h : ∀ p ∈ termPlaces t, placeIsRemappedRoot fr p = false) :
    rewriteTerm fr t = .ok t := by
  cases t with
  | goto target => rfl
  | drop p target =>
    simp [termPlaces] at h
    simp [rewriteTerm, rewritePlace_not_root fr p h, Except.map]
  | ret => rfl

theorem exceptPure {e a : Type} (x : a) : (pure x : Except e a) = Except.ok x := rfl

theorem exceptOkBind {e a b : Type} (x : a) (f : a → Except e b) :
    (Except.ok x >>= f) = f x := rfl

theorem exceptErrorBind {e a b : Type} (err : e) (f : a → Except e b) :
    ((Except.error err : Except e a) >>= f) = Except.error err := rfl

/-- A place erased to a fixed dummy: two nodes have equal shape when they
agree after every place is erased. -/
def placeErased : MirPlace := ⟨0, []⟩

def operandShape : MirOperand → MirOperand
  | .copy _ => .copy placeErased
  | .move _ => .move placeErased
  | .constant t => .constant t

def rvalueShape : MirRvalue → MirRvalue
  | .use op => .use (operandShape op)
  | .ref m _ => .ref m placeErased
  | .binaryOp lhs rhs => .binaryOp (operandShape lhs) (operandShape rhs)

def stmtShape : MirStmt → MirStmt
  | .assign _ rv => .assign placeErased (rvalueShape rv)
  | .storageLive l => .storageLive l
  | .storageDead l => .storageDead l
  | .nop => .nop

def termShape : MirTerm → MirTerm
  | .goto t => .goto t
  | .drop _ t => .drop placeErased t
  | .ret => .ret

def blockShape (b : MirBlock) : MirBlock :=
  ⟨b.statements.map stmtShape, b.terminator.map termShape⟩

theorem rewriteOperand_shape (fr : List RemapEntry) (o o' : MirOperand)
    (h : rewriteOperand fr o = .ok o') : operandShape o' = operandShape o := by
  cases o with
  | copy p =>
    cases hr : rewritePlace fr p with
    | error e => simp [rewriteOperand, hr, Except.map] at h
    | ok q =>
      simp only [rewriteOperand, hr, Except.map] at h
      injection h with h
      rw [← h]
      rfl
  | move p =>
    cases hr : rewritePlace fr p with
    | error e => simp [rewriteOperand, hr, Except.map] at h
    | ok q =>
      simp only [rewriteOperand, hr, Except.map] at h
      injection h with h
      rw [← h]
      rfl
  | constant t =>
    injection h with h
    rw [← h]

theorem rewriteRvalue_shape (fr : List RemapEntry) (rv rv' : MirRvalue)
    (h : rewriteRvalue fr rv = .ok rv') : rvalueShape rv' = rvalueShape rv := by
  cases rv with
  | use op =>
    cases hr : rewriteOperand fr op with
    | error e => simp [rewriteRvalue, hr, Except.map] at h
    | ok op' =>
      simp only [rewriteRvalue, hr, Except.map] at h
      injection h with h
      rw [← h]
      simp [rvalueShape, rewriteOperand_shape fr op op' hr]
  | ref m p =>
    cases hr : rewritePlace fr p with
    | error e => simp [rewriteRvalue, hr, Except.map] at h
    | ok q =>
      simp only [rewriteRvalue, hr, Except.map] at h
      injection h with h
      rw [← h]
      rfl
  | binaryOp lhs rhs =>
    cases h1 : rewriteOperand fr lhs with
    | error e => simp [rewriteRvalue, h1, exceptErrorBind] at h
    | ok lhs' =>
      cases h2 : rewriteOperand fr rhs with
      | error e => simp [rewriteRvalue, h1, h2, exceptOkBind, exceptErrorBind] at h
      | ok rhs' =>
        simp only [rewriteRvalue, h1, h2, exceptOkBind, exceptErrorBind] at h
        injection h with h
        rw [← h]
        simp [rvalueShape, rewriteOperand_shape fr lhs lhs' h1,
          rewriteOperand_shape fr rhs rhs' h2]

theorem rewriteStmt_shape (fr : List RemapEntry) (s s' : MirStmt)
    (h : rewriteStmt fr s = .ok s') : stmtShape s' = stmtShape s := by
  cases s with
  | assign p rv =>
    cases h1 : rewritePlace fr p with
    | error e => simp [rewriteStmt, h1, exceptErrorBind] at h
    | ok q =>
      cases h2 : rewriteRvalue fr rv with
      | error e => simp [rewriteStmt, h1, h2, exceptOkBind, exceptErrorBind] at h
      | ok rv' =>
        simp only [rewriteStmt, h1, h2, exceptOkBind, exceptErrorBind] at h
        injection h with h
        rw [← h]
        simp [stmtShape, rewriteRvalue_shape fr rv rv' h2]
  | storageLive l => injection h with h; rw [← h]
  | storageDead l => injection h with h; rw [← h]
  | nop => injection h with h; rw [← h]

theorem rewriteTerm_shape (fr : List RemapEntry) (t t' : MirTerm)
    (h : rewriteTerm fr t = .ok t') : termShape t' = termShape t := by
  cases t with
  | goto target => injection h with h; rw [← h]
  | drop p target =>
    cases hr : rewritePlace fr p with
    | error e => simp [rewriteTerm, hr, Except.map] at h
    | ok q =>
      simp only [rewriteTerm, hr, Except.map] at h
      injection h with h
      rw [← h]
      rfl
  | ret => injection h with h; rw [← h]

theorem mapM_ok_map_eq {α γ : Type} (f : α → Except MirError α) (g : α → γ)
    (hfg : ∀ a a', f a = .ok a' → g a' = g a) :
    ∀ (l l' : List α), l.mapM f = .ok l' → l'.map g = l.map g := by
  intro l
  induction l with
  | nil =>
    intro l' h
    rw [List.mapM_nil, exceptPure] at h
    injection h with h
    rw [← h]
  | cons a t ih =>
    intro l' h
    rw [List.mapM_cons] at h
    cases hfa : f a with
    | error e =>
      rw [hfa, exceptErrorBind] at h
      exact Except.noConfusion h
    | ok y =>
      rw [hfa, exceptOkBind] at h
      cases hm : t.mapM f with
      | error e =>
        rw [hm, exceptErrorBind] at h
        exact Except.noConfusion h
      | ok ys =>
        rw [hm, exceptOkBind, exceptPure] at h
        injection h with h
        rw [← h, List.map_cons, List.map_cons, hfg a y hfa, ih ys hm]

theorem rewriteOptTerm_shape (fr : List RemapEntry) (ot ot' : Option MirTerm)
    (h : rewriteOptTerm fr ot = .ok ot') :
    ot'.map termShape = ot.map termShape := by
  cases ot with
  | none =>
    injection h with h
    rw [← h]
  | some t =>
    cases hrt : rewriteTerm fr t with
    | error e => simp [rewriteOptTerm, hrt, Except.map] at h
    | ok t' =>
      simp only [rewriteOptTerm, hrt, Except.map] at h
      injection h with h
      rw [← h]
      simp [rewriteTerm_shape fr t t' hrt]

theorem rewriteBlock_shape (fr : List RemapEntry) (b b' : MirBlock)
    (h : rewriteBlock fr b = .ok b') : blockShape b' = blockShape b := by
  rw [rewriteBlock] at h
  cases hm : b.statements.mapM (rewriteStmt fr) with
  | error e =>
    rw [hm, exceptErrorBind] at h
    exact Except.noConfusion h
  | ok sts =>
    rw [hm, exceptOkBind] at h
    have hsts := mapM_ok_map_eq (rewriteStmt fr) stmtShape
      (fun s s' hs => rewriteStmt_shape fr s s' hs) b.statements sts hm
    cases hot : rewriteOptTerm fr b.terminator with
    | error e =>
      rw [hot, exceptErrorBind] at h
      exact Except.noConfusion h
    | ok ot' =>
      rw [hot, exceptOkBind] at h
      injection h with h
      rw [← h]
      simp [blockShape, hsts, rewriteOptTerm_shape fr b.terminator ot' hot]

theorem rewriteBody_ok_parts (fr : List RemapEntry) (byMoveTy : Ty) (b b' : MirBody)
    (h : rewriteBody fr byMoveTy b = .ok b') :
    b'.localDecls = rewriteLocalDecls byMoveTy b.localDecls ∧
      b.blocks.mapM (rewriteBlock fr) = .ok b'.blocks := by
  rw [rewriteBody] at h
  cases hm : b.blocks.mapM (rewriteBlock fr) with
  | error e =>
    rw [hm, exceptErrorBind] at h
    exact Except.noConfusion h
  | ok blocks =>
    rw [hm, exceptOkBind] at h
    injection h with h
    rw [← h]
    exact ⟨rfl, rfl⟩

theorem rewriteLocalDecls_getElem_ne (byMoveTy : Ty) (decls : List Ty) (l : Nat)
    (h : l ≠ CAPTURE_STRUCT_LOCAL) :
    (rewriteLocalDecls byMoveTy decls)[l]? = decls[l]? := by
  rw [rewriteLocalDecls, List.getElem?_map, List.getElem?_enum]
  cases decls[l]? with
  | none => rfl
  | some ty => simp [h]

/-- C6 (confirmed). The body rewrite has no effect outside the remapped
capture places and the capture-aggregate local's declared type: a place not
rooted at the capture-aggregate local, or whose first projection is not a
`Field` present in the remapping table, is left identical; a statement or
terminator all of whose places are such is left identical; and on any
successful body rewrite the block/statement/terminator structure (places
erased) is preserved and every local declaration other than the
capture-aggregate local's is unchanged. -/
theorem rewrite_frame_outside_remapped_places (fr : List RemapEntry) (byMoveTy : Ty) :
    (∀ place, placeIsRemappedRoot fr place = false →
      rewritePlace fr place = .ok place) ∧
    (∀ s, (∀ p ∈ stmtPlaces s, placeIsRemappedRoot fr p = false) →
      rewriteStmt fr s = .ok s) ∧
    (∀ t, (∀ p ∈ termPlaces t, placeIsRemappedRoot fr p = false) →
      rewriteTerm fr t = .ok t) ∧
    (∀ b b', rewriteBody fr byMoveTy b = .ok b' →
      b'.blocks.map blockShape = b.blocks.map blockShape ∧
      ∀ l, l ≠ CAPTURE_STRUCT_LOCAL → b'.localDecls[l]? = b.localDecls[l]?) := by
  refine ⟨rewritePlace_not_root fr, rewriteStmt_not_root fr, rewriteTerm_not_root fr,
    fun b b' h => ?_⟩
  obtain ⟨hdecls, hblocks⟩ := rewriteBody_ok_parts fr byMoveTy b b' h
  constructor
  · exact mapM_ok_map_eq (rewriteBlock fr) blockShape
      (fun x x' hx => rewriteBlock_shape fr x x' hx) b.blocks b'.blocks hblocks
  · intro l hl
    rw [hdecls, rewriteLocalDecls_getElem_ne byMoveTy b.localDecls l hl]

/-! ## Invariants of the capture-matching loop -/

theorem matchChildLoop_subset (kind : ClosureKind) (numArgs : Nat)
    (cIdx : Nat) (cCap : CapturedPlace) :
    ∀ (parents : List (Nat × CapturedPlace)) (used : Bool)
      (entry : RemapEntry) (parents' : List (Nat × CapturedPlace)),
      matchChildLoop kind numArgs cIdx cCap used parents = .ok (entry, parents') →
      ∀ x ∈ parents', x ∈ parents := by
  intro parents
  induction parents with
  | nil =>
    intro used entry parents' h
    exact Except.noConfusion h
  | cons p ps ih =>
    intro used entry parents' h x hx
    obtain ⟨pIdx, pCap⟩ := p
    rw [matchChildLoop] at h
    cases hm : child_prefix_matches_parent_projections pCap cCap with
    | error err =>
      simp only [hm] at h
      exact Except.noConfusion h
    | ok b =>
      cases b with
      | false =>
        cases used with
        | false =>
          simp only [hm, Bool.false_eq_true, if_false] at h
          exact Except.noConfusion h
        | true =>
          simp only [hm, if_true] at h
          exact List.mem_cons_of_mem _ (ih false entry parents' h x hx)
      | true =>
        by_cases hnd : ((cCap.isByRef && !pCap.isByRef) && kind == ClosureKind.fnOnce) = true
        · simp only [hm, hnd, if_true] at h
          exact Except.noConfusion h
        · simp only [hm, if_neg hnd] at h
          injection h with h
          injection h with h1 h2
          rw [← h2] at hx
          exact hx

theorem matchChildLoop_entry (kind : ClosureKind) (numArgs : Nat)
    (cIdx : Nat) (cCap : CapturedPlace) :
    ∀ (parents : List (Nat × CapturedPlace)) (used : Bool)
      (entry : RemapEntry) (parents' : List (Nat × CapturedPlace)),
      matchChildLoop kind numArgs cIdx cCap used parents = .ok (entry, parents') →
      ∃ pi ∈ parents,
        child_prefix_matches_parent_projections pi.2 cCap = .ok true ∧
        entry.childFieldIdx = cIdx + numArgs ∧
        entry.parentFieldIdx = pi.1 + numArgs ∧
        entry.parentTy = parentCaptureEffectiveTy pi.2 ∧
        entry.needsDeref = (cCap.isByRef && !pi.2.isByRef) ∧
        entry.extraProjections = cCap.place.projections.drop pi.2.place.projections.length := by
  intro parents
  induction parents with
  | nil =>
    intro used entry parents' h
    exact Except.noConfusion h
  | cons p ps ih =>
    intro used entry parents' h
    obtain ⟨pIdx, pCap⟩ := p
    rw [matchChildLoop] at h
    cases hm : child_prefix_matches_parent_projections pCap cCap with
    | error err =>
      simp only [hm] at h
      exact Except.noConfusion h
    | ok b =>
      cases b with
      | false =>
        cases used with
        | false =>
          simp only [hm, Bool.false_eq_true, if_false] at h
          exact Except.noConfusion h
        | true =>
          simp only [hm, if_true] at h
          obtain ⟨pi, hpi, hrest⟩ := ih false entry parents' h
          exact ⟨pi, List.mem_cons_of_mem _ hpi, hrest⟩
      | true =>
        by_cases hnd : ((cCap.isByRef && !pCap.isByRef) && kind == ClosureKind.fnOnce) = true
        · simp only [hm, hnd, if_true] at h
          exact Except.noConfusion h
        · simp only [hm, if_neg hnd] at h
          injection h with h
          injection h with h1 h2
          exact ⟨(pIdx, pCap), List.mem_cons_self _ _, hm, by rw [← h1], by rw [← h1],
            by rw [← h1], by rw [← h1], by rw [← h1]⟩

theorem matchChildLoop_covered (kind : ClosureKind) (numArgs : Nat)
    (cIdx : Nat) (cCap : CapturedPlace) :
    ∀ (parents : List (Nat × CapturedPlace)) (used : Bool)
      (entry : RemapEntry) (parents' : List (Nat × CapturedPlace)),
      matchChildLoop kind numArgs cIdx cCap used parents = .ok (entry, parents') →
      ∀ pi ∈ (if used then parents.drop 1 else parents),
        pi ∈ parents'.drop 1 ∨ entry.parentFieldIdx = pi.1 + numArgs := by
  intro parents
  induction parents with
  | nil =>
    intro used entry parents' h
    exact Except.noConfusion h
  | cons p ps ih =>
    intro used entry parents' h pi hpi
    obtain ⟨pIdx, pCap⟩ := p
    rw [matchChildLoop] at h
    cases hm : child_prefix_matches_parent_projections pCap cCap with
    | error err =>
      simp only [hm] at h
      exact Except.noConfusion h
    | ok b =>
      cases b with
      | false =>
        cases used with
        | false =>
          simp only [hm, Bool.false_eq_true, if_false] at h
          exact Except.noConfusion h
        | true =>
          simp only [hm, if_true] at h
          rw [if_pos rfl, List.drop_one, List.tail_cons] at hpi
          exact ih false entry parents' h pi
            (by rw [if_neg Bool.false_ne_true]; exact hpi)
      | true =>
        by_cases hnd : ((cCap.isByRef && !pCap.isByRef) && kind == ClosureKind.fnOnce) = true
        · simp only [hm, hnd, if_true] at h
          exact Except.noConfusion h
        · simp only [hm, if_neg hnd] at h
          injection h with h
          injection h with h1 h2
          cases used with
          | true =>
            rw [if_pos rfl, List.drop_one, List.tail_cons] at hpi
            rw [← h2, List.drop_one, List.tail_cons]
            exact Or.inl hpi
          | false =>
            rw [if_neg Bool.false_ne_true] at hpi
            rcases List.mem_cons.mp hpi with hpi | hpi
            · subst hpi
              rw [← h1]
              exact Or.inr rfl
            · rw [← h2, List.drop_one, List.tail_cons]
              exact Or.inl hpi

theorem matchCaptures_mem_ok (kind : ClosureKind) (numArgs : Nat) :
    ∀ (children parents : List (Nat × CapturedPlace)) (used : Bool)
      (remap : List RemapEntry),
      matchCaptures kind numArgs parents used children = .ok remap →
      ∀ e ∈ remap, ∃ pi ∈ parents, ∃ ci ∈ children,
        e.childFieldIdx = ci.1 + numArgs ∧
        e.parentFieldIdx = pi.1 + numArgs ∧
        child_prefix_matches_parent_projections pi.2 ci.2 = .ok true ∧
        e.parentTy = parentCaptureEffectiveTy pi.2 ∧
        e.needsDeref = (ci.2.isByRef && !pi.2.isByRef) ∧
        e.extraProjections = ci.2.place.projections.drop pi.2.place.projections.length := by
  intro children
  induction children with
  | nil =>
    intro parents used remap h e he
    simp only [matchCaptures] at h
    cases used with
    | true =>
      rw [if_pos rfl] at h
      cases parents with
      | nil => exact Except.noConfusion h
      | cons p ps =>
        simp only [] at h
        by_cases hps : ps.isEmpty = true
        · rw [if_pos hps] at h
          injection h with h
          rw [← h] at he
          exact absurd he (List.not_mem_nil e)
        · rw [if_neg hps] at h
          exact Except.noConfusion h
    | false =>
      rw [if_neg Bool.false_ne_true] at h
      cases parents with
      | nil =>
        simp only [] at h
        injection h with h
        rw [← h] at he
        exact absurd he (List.not_mem_nil e)
      | cons p ps =>
        simp only [] at h
        exact Except.noConfusion h
  | cons c cs ih =>
    intro parents used remap h e he
    obtain ⟨cIdx, cCap⟩ := c
    simp only [matchCaptures] at h
    cases hloop : matchChildLoop kind numArgs cIdx cCap used parents with
    | error err =>
      simp only [hloop] at h
      exact Except.noConfusion h
    | ok pr =>
      obtain ⟨entry, parents'⟩ := pr
      simp only [hloop] at h
      cases hrec : matchCaptures kind numArgs parents' true cs with
      | error err =>
        simp only [hrec] at h
        exact Except.noConfusion h
      | ok rest =>
        simp only [hrec] at h
        injection h with h
        rw [← h] at he
        rcases List.mem_cons.mp he with he | he
        · subst he
          obtain ⟨pi, hpi, hmatch, h1, h2, h3, h4, h5⟩ :=
            matchChildLoop_entry kind numArgs cIdx cCap parents used e parents' hloop
          exact ⟨pi, hpi, (cIdx, cCap), List.mem_cons_self _ _, h1, h2, hmatch, h3, h4, h5⟩
        · obtain ⟨pi, hpi, ci, hci, hrest⟩ := ih parents' true rest hrec e he
          exact ⟨pi, matchChildLoop_subset kind numArgs cIdx cCap parents used entry parents'
            hloop pi hpi, ci, List.mem_cons_of_mem _ hci, hrest⟩

theorem matchCaptures_parents_covered (kind : ClosureKind) (numArgs : Nat) :
    ∀ (children parents : List (Nat × CapturedPlace)) (used : Bool)
      (remap : List RemapEntry),
      matchCaptures kind numArgs parents used children = .ok remap →
      ∀ pi ∈ (if used then parents.drop 1 else parents),
        ∃ e ∈ remap, e.parentFieldIdx = pi.1 + numArgs := by
  intro children
  induction children with
  | nil =>
    intro parents used remap h pi hpi
    simp only [matchCaptures] at h
    cases used with
    | true =>
      rw [if_pos rfl] at h
      rw [if_pos rfl] at hpi
      cases parents with
      | nil => exact Except.noConfusion h
      | cons p ps =>
        simp only [] at h
        by_cases hps : ps.isEmpty = true
        · rw [List.isEmpty_iff] at hps
          rw [List.drop_one, List.tail_cons, hps] at hpi
          exact absurd hpi (List.not_mem_nil pi)
        · rw [if_neg hps] at h
          exact Except.noConfusion h
    | false =>
      rw [if_neg Bool.false_ne_true] at h
      rw [if_neg Bool.false_ne_true] at hpi
      cases parents with
      | nil => exact absurd hpi (List.not_mem_nil pi)
      | cons p ps =>
        simp only [] at h
        exact Except.noConfusion h
  | cons c cs ih =>
    intro parents used remap h pi hpi
    obtain ⟨cIdx, cCap⟩ := c
    simp only [matchCaptures] at h
    cases hloop : matchChildLoop kind numArgs cIdx cCap used parents with
    | error err =>
      simp only [hloop] at h
      exact Except.noConfusion h
    | ok pr =>
      obtain ⟨entry, parents'⟩ := pr
      simp only [hloop] at h
      cases hrec : matchCaptures kind numArgs parents' true cs with
      | error err =>
        simp only [hrec] at h
        exact Except.noConfusion h
      | ok rest =>
        simp only [hrec] at h
        injection h with h
        rcases matchChildLoop_covered kind numArgs cIdx cCap parents used entry parents'
            hloop pi hpi with hc | hc
        · obtain ⟨e, hemem, heidx⟩ := ih parents' true rest hrec pi
            (by rw [if_pos rfl]; exact hc)
          exact ⟨e, by rw [← h]; exact List.mem_cons_of_mem _ hemem, heidx⟩
        · exact ⟨entry, by rw [← h]; exact List.mem_cons_self _ _, hc⟩

/-! ## C2 and C4: contents of the remapping, and fatal unmatched parents -/

deriving instance DecidableEq for Except

/-- `Except.isOk`-style discriminator for stating that a run fails. -/
def exceptIsOk {e a : Type} : Except e a → Bool
  | .ok _ => true
  | .error _ => false

/-- C2 (confirmed). Every entry the matching loop records for a child
capture maps the child's aggregate field index (`child_field_idx +
num_args`) to the quadruple of its matching parent: the parent's aggregate
field index (`parent_field_idx + num_args`); the parent's place type,
wrapped in a reference carrying the parent's captured mutability exactly
when the parent captures by reference; `needs_deref` true exactly when the
child captures by reference while the parent captures by value; and the
suffix of the child's projection path beyond the parent's path length. -/
theorem remap_entry_contents (kind : ClosureKind) (numArgs : Nat)
    (parentCaptures childCaptures : List CapturedPlace) (remap : List RemapEntry)
    (h : matchCaptures kind numArgs parentCaptures.enum false
      ((childCaptures.drop numArgs).enum) = .ok remap) :
    ∀ e ∈ remap, ∃ pi ∈ parentCaptures.enum, ∃ ci ∈ (childCaptures.drop numArgs).enum,
      e.childFieldIdx = ci.1 + numArgs ∧
      e.parentFieldIdx = pi.1 + numArgs ∧
      child_prefix_matches_parent_projections pi.2 ci.2 = .ok true ∧
      (pi.2.info.captureKind = UpvarCapture.byValue → e.parentTy = pi.2.place.ty) ∧
      (∀ bk, pi.2.info.captureKind = UpvarCapture.byRef bk →
        e.parentTy = Ty.ref bk.toMutblLossy pi.2.place.ty) ∧
      e.needsDeref = (ci.2.isByRef && !pi.2.isByRef) ∧
      e.extraProjections = ci.2.place.projections.drop pi.2.place.projections.length := by
  intro e he
  obtain ⟨pi, hpi, ci, hci, h1, h2, h3, h4, h5, h6⟩ :=
    matchCaptures_mem_ok kind numArgs _ _ false remap h e he
  refine ⟨pi, hpi, ci, hci, h1, h2, h3, ?_, ?_, h5, h6⟩
  · intro hv
    rw [h4, parentCaptureEffectiveTy, hv]
  · intro bk hr
    rw [h4, parentCaptureEffectiveTy, hr]

def capSval : CapturedPlace := ⟨⟨⟨3⟩, Ty.base 20, []⟩, ⟨.byValue⟩⟩

def capSf0 : CapturedPlace :=
  ⟨⟨⟨3⟩, Ty.base 20, [⟨Ty.base 21, .field 0 0⟩]⟩, ⟨.byRef .immBorrow⟩⟩

def capSf1 : CapturedPlace :=
  ⟨⟨⟨3⟩, Ty.base 20, [⟨Ty.base 22, .field 1 0⟩]⟩, ⟨.byRef .immBorrow⟩⟩

def scenarioBEntry : RemapEntry := ⟨0, 0, Ty.base 20, true, [⟨Ty.base 21, .field 0 0⟩]⟩

def scenarioBRemap : List RemapEntry :=
  [scenarioBEntry, ⟨1, 0, Ty.base 20, true, [⟨Ty.base 22, .field 1 0⟩]⟩]

/-- Witness for C2: the precise-capture split scenario — one by-value parent
capture of `s`, two by-ref child captures of `s.f0` and `s.f1`. -/
theorem remap_entry_contents_witness :
    ∃ pi ∈ [capSval].enum, ∃ ci ∈ (([capSf0, capSf1].drop 0).enum),
      scenarioBEntry.childFieldIdx = ci.1 + 0 ∧
      scenarioBEntry.parentFieldIdx = pi.1 + 0 ∧
      child_prefix_matches_parent_projections pi.2 ci.2 = .ok true ∧
      (pi.2.info.captureKind = UpvarCapture.byValue →
        scenarioBEntry.parentTy = pi.2.place.ty) ∧
      (∀ bk, pi.2.info.captureKind = UpvarCapture.byRef bk →
        scenarioBEntry.parentTy = Ty.ref bk.toMutblLossy pi.2.place.ty) ∧
      scenarioBEntry.needsDeref = (ci.2.isByRef && !pi.2.isByRef) ∧
      scenarioBEntry.extraProjections =
        ci.2.place.projections.drop pi.2.place.projections.length :=
  remap_entry_contents .fn 0 [capSval] [capSf0, capSf1] scenarioBRemap rfl
    scenarioBEntry (by decide)

/-- C4 (confirmed). A parent capture matched by no child capture makes the
pass abort: if some enumerated parent capture matches none of the enumerated
child captures (past the argument prefix), the matching loop cannot return a
remapping — the parent cursor only advances past used parents and must be
exhausted at the end, so the run ends in one of the fatal checks instead. -/
theorem unmatched_parent_capture_fatal (kind : ClosureKind) (numArgs : Nat)
    (parentCaptures childCaptures : List CapturedPlace) (pi : Nat × CapturedPlace)
    (hmem : pi ∈ parentCaptures.enum)
    (hnone : ∀ ci ∈ (childCaptures.drop numArgs).enum,
      child_prefix_matches_parent_projections pi.2 ci.2 ≠ .ok true) :
    exceptIsOk (matchCaptures kind numArgs parentCaptures.enum false
      ((childCaptures.drop numArgs).enum)) = false := by
  cases hres : matchCaptures kind numArgs parentCaptures.enum false
      ((childCaptures.drop numArgs).enum) with
  | error err => rfl
  | ok remap =>
    exfalso
    obtain ⟨e, hemem, heidx⟩ :=
      matchCaptures_parents_covered kind numArgs _ _ false remap hres pi
        (by rw [if_neg Bool.false_ne_true]; exact hmem)
    obtain ⟨pi', hpi', ci, hci, _, hpidx, hmatch, _, _, _⟩ :=
      matchCaptures_mem_ok kind numArgs _ _ false remap hres e hemem
    have hidx : pi'.1 = pi.1 := by omega
    have h1 : parentCaptures[pi.1]? = some pi.2 := by
      have := List.mem_enum_iff_getElem?.mp hmem
      simpa using this
    have h2 : parentCaptures[pi.1]? = some pi'.2 := by
      have := List.mem_enum_iff_getElem?.mp hpi'
      rw [hidx] at this
      simpa using this
    have hcap : pi'.2 = pi.2 := by
      rw [h1] at h2
      injection h2 with h2
      exact h2.symm
    rw [hcap] at hmatch
    exact hnone ci hci hmatch

def capXval : CapturedPlace := ⟨⟨⟨1⟩, Ty.base 10, []⟩, ⟨.byValue⟩⟩

def capYref : CapturedPlace := ⟨⟨⟨2⟩, Ty.base 11, []⟩, ⟨.byRef .immBorrow⟩⟩

/-- Witness for C4: the parent list captures `x` and `y` but the only child
capture reads `x`, leaving `y` unmatched — the run fails. -/
theorem unmatched_parent_capture_fatal_witness :
    exceptIsOk (matchCaptures ClosureKind.fn 0 [capXval, capYref].enum false
      (([capXval].drop 0).enum)) = false :=
  unmatched_parent_capture_fatal ClosureKind.fn 0 [capXval, capYref] [capXval]
    (1, capYref) (by decide) (by decide)

/-! ## C5 and C9: the `FnOnce` short-circuit and the early exits -/

/-- C5 (confirmed). For a unit whose closure kind is `FnOnce`, any
non-erroring run of the pass produces no by-move body (and leaves the
original body untouched); and when the run got past the early exits, the
computed remapping covers exactly the parent's full capture list (the
`assert_eq!`). -/
theorem fnonce_no_alternate_body (inp : PassInput) (res : MirBody × Option MirBody)
    (hk : inp.coroutineKind = ClosureKind.fnOnce)
    (h : runPass inp = .ok res) :
    res.1 = inp.body ∧ res.2 = none ∧
      (passEarlyExit inp = false →
        ∃ remap, matchCaptures inp.coroutineKind inp.numArgs inp.parentCaptures.enum
            false ((inp.childCaptures.drop inp.numArgs).enum) = .ok remap ∧
          remap.length = inp.parentCaptures.length) := by
  rw [runPass] at h
  by_cases he : passEarlyExit inp = true
  · rw [if_pos he] at h
    injection h with h
    rw [← h]
    exact ⟨rfl, rfl, fun hfalse => absurd he (by rw [hfalse]; exact Bool.false_ne_true)⟩
  · rw [if_neg he] at h
    cases hmc : matchCaptures inp.coroutineKind inp.numArgs inp.parentCaptures.enum
        false ((inp.childCaptures.drop inp.numArgs).enum) with
    | error err =>
      simp only [hmc] at h
      exact Except.noConfusion h
    | ok remap =>
      simp only [hmc] at h
      rw [hk] at h
      rw [if_pos (by decide : (ClosureKind.fnOnce == ClosureKind.fnOnce) = true)] at h
      by_cases hlen : (remap.length == inp.parentCaptures.length) = true
      · rw [if_pos hlen] at h
        injection h with h
        rw [← h]
        exact ⟨rfl, rfl, fun _ => ⟨remap, rfl, (by simpa using hlen)⟩⟩
      · rw [if_neg hlen] at h
        exact Except.noConfusion h

def c5Input : PassInput :=
  ⟨true, false, false, ClosureKind.fnOnce, 0, [capXval, capYref],
    [capXval, capYref], Ty.base 99, ⟨[Ty.base 0, Ty.base 1], []⟩⟩

/-- Witness for C5: a concrete `FnOnce` unit whose parent and child capture
lists coincide; the pass succeeds with no by-move body and a remapping of
the parent list's full length. -/
theorem fnonce_no_alternate_body_witness :
    ((c5Input.body, (none : Option MirBody)) : MirBody × Option MirBody).1 = c5Input.body ∧
      ((c5Input.body, (none : Option MirBody)) : MirBody × Option MirBody).2 = none ∧
      (passEarlyExit c5Input = false →
        ∃ remap, matchCaptures c5Input.coroutineKind c5Input.numArgs
            c5Input.parentCaptures.enum false
            ((c5Input.childCaptures.drop c5Input.numArgs).enum) = .ok remap ∧
          remap.length = c5Input.parentCaptures.length) :=
  fnonce_no_alternate_body c5Input (c5Input.body, none) rfl rfl

theorem passEarlyExit_eq_true_iff (inp : PassInput) :
    passEarlyExit inp = true ↔
      (inp.isClosureDesugaredCoroutine = false ∨ inp.coroutineTyReferencesError = true ∨
        inp.isCoroutineKindShim = true) := by
  rw [passEarlyExit]
  cases inp.isClosureDesugaredCoroutine <;>
    cases inp.coroutineTyReferencesError <;>
      cases inp.isCoroutineKindShim <;> simp

/-- Counterexample for C9: a `FnOnce` unit in none of the three early-exit
situations for which the pass still returns the body unchanged, no by-move
body, and no error — so the three early exits are not the only such
outcomes. -/
theorem fnonce_outcome_outside_early_exits :
    c5Input.isClosureDesugaredCoroutine = true ∧
      c5Input.coroutineTyReferencesError = false ∧
      c5Input.isCoroutineKindShim = false ∧
      runPass c5Input = .ok (c5Input.body, none) :=
  ⟨rfl, rfl, rfl, rfl⟩

/-- C9 (corrected). The pass returns the original body unchanged with no
by-move body and no error exactly when one of the three early-exit
situations holds — the body is not a closure-desugared coroutine, the
capture-aggregate type references an error, or the body is already the
`CoroutineKindShim` — or (the case the claim omits) the unit's closure kind
is `FnOnce`, the matching loop succeeds, and the remapping covers the
parent's full capture list. -/
theorem no_alternate_ok_iff_early_exit_or_fnonce (inp : PassInput) :
    runPass inp = .ok (inp.body, none) ↔
      ((inp.isClosureDesugaredCoroutine = false ∨ inp.coroutineTyReferencesError = true ∨
        inp.isCoroutineKindShim = true) ∨
      (inp.coroutineKind = ClosureKind.fnOnce ∧
        ∃ remap, matchCaptures inp.coroutineKind inp.numArgs inp.parentCaptures.enum
            false ((inp.childCaptures.drop inp.numArgs).enum) = .ok remap ∧
          remap.length = inp.parentCaptures.length)) := by
  rw [runPass]
  by_cases he : passEarlyExit inp = true
  · rw [if_pos he]
    constructor
    · intro _
      exact Or.inl ((passEarlyExit_eq_true_iff inp).mp he)
    · intro _
      rfl
  · rw [if_neg he]
    have hne : ¬(inp.isClosureDesugaredCoroutine = false ∨
        inp.coroutineTyReferencesError = true ∨ inp.isCoroutineKindShim = true) :=
      fun hcon => he ((passEarlyExit_eq_true_iff inp).mpr hcon)
    cases hmc : matchCaptures inp.coroutineKind inp.numArgs inp.parentCaptures.enum
        false ((inp.childCaptures.drop inp.numArgs).enum) with
    | error err =>
      simp only []
      constructor
      · intro hcon
        exact Except.noConfusion hcon
      · rintro (hcon | ⟨hk, remap, hremap, hlen⟩)
        · exact absurd hcon hne
        · exact Except.noConfusion hremap
    | ok remap =>
      simp only []
      by_cases hk1 : (inp.coroutineKind == ClosureKind.fnOnce) = true
      · rw [if_pos hk1]
        by_cases hlen : (remap.length == inp.parentCaptures.length) = true
        · rw [if_pos hlen]
          constructor
          · intro _
            exact Or.inr ⟨by simpa using hk1, remap, rfl, by simpa using hlen⟩
          · intro _
            rfl
        · rw [if_neg hlen]
          constructor
          · intro hcon
            exact Except.noConfusion hcon
          · rintro (hcon | ⟨hk, remap', hremap', hlen'⟩)
            · exact absurd hcon hne
            · injection hremap' with hremap'
              rw [← hremap'] at hlen'
              exact absurd (by simpa using hlen') hlen
      · rw [if_neg hk1]
        cases hrb : rewriteBody remap inp.byMoveCoroutineTy inp.body with
        | error err =>
          simp only []
          constructor
          · intro hcon
            exact Except.noConfusion hcon
          · rintro (hcon | ⟨hk, rest⟩)
            · exact absurd hcon hne
            · exact absurd (by simp [hk] : (inp.coroutineKind == ClosureKind.fnOnce) = true) hk1
        | ok b' =>
          simp only []
          constructor
          · intro hcon
            injection hcon with hcon
            exact absurd (congrArg Prod.snd hcon) (by simp)
          · rintro (hcon | ⟨hk, rest⟩)
            · exact absurd hcon hne
            · exact absurd (by simp [hk] : (inp.coroutineKind == ClosureKind.fnOnce) = true) hk1

/-! ## C7: the default structural traversal -/

theorem visitBlockStatements_snd (block : Nat) :
    ∀ (stmts : List StatementV) (index : Nat),
      (visitBlockStatements block index stmts).2 = index + stmts.length := by
  intro stmts
  induction stmts with
  | nil => intro index; simp [visitBlockStatements]
  | cons s t ih =>
    intro index
    rw [visitBlockStatements]
    simp only [ih (index + 1), List.length_cons]
    omega

theorem visitBlockStatements_fst (block : Nat) :
    ∀ (stmts : List StatementV) (index : Nat),
      (visitBlockStatements block index stmts).1 =
        (List.range stmts.length).map
          (fun i => VisitEvent.visitStatement block (index + i)) := by
  intro stmts
  induction stmts with
  | nil => intro index; simp [visitBlockStatements]
  | cons s t ih =>
    intro index
    rw [visitBlockStatements]
    simp only [ih (index + 1), List.length_cons, List.range_succ_eq_map,
      List.map_cons, List.map_map]
    congr 1
    apply List.map_congr_left
    intro a _
    simp only [Function.comp_apply]
    congr 1
    omega

theorem super_basic_block_data_trace_eq (block : Nat) (data : BasicBlockDataV) :
    super_basic_block_data_trace block data =
      (List.range data.statements.length).map
          (fun i => VisitEvent.visitStatement block i) ++
        (match data.terminator with
         | some _ => [VisitEvent.visitTerminator block data.statements.length]
         | none => []) := by
  rw [super_basic_block_data_trace]
  rw [visitBlockStatements_fst, visitBlockStatements_snd]
  simp

theorem mem_super_basic_block_data_trace (block : Nat) (data : BasicBlockDataV) :
    ∀ ev ∈ super_basic_block_data_trace block data,
      (∃ i, ev = VisitEvent.visitStatement block i) ∨
        (∃ i, ev = VisitEvent.visitTerminator block i) := by
  intro ev hev
  rw [super_basic_block_data_trace_eq] at hev
  rcases List.mem_append.mp hev with hev | hev
  · obtain ⟨i, _, hi⟩ := List.mem_map.mp hev
    exact Or.inl ⟨i, hi.symm⟩
  · cases ht : data.terminator with
    | some t =>
      rw [ht] at hev
      have := List.mem_singleton.mp hev
      exact Or.inr ⟨data.statements.length, this⟩
    | none =>
      rw [ht] at hev
      exact absurd hev (List.not_mem_nil ev)

theorem mem_visitBlocksTrace :
    ∀ (blocks : List BasicBlockDataV) (start : Nat), ∀ ev ∈ visitBlocksTrace start blocks,
      (∃ b, ev = VisitEvent.visitBasicBlockData b) ∨
        (∃ b i, ev = VisitEvent.visitStatement b i) ∨
        (∃ b i, ev = VisitEvent.visitTerminator b i) := by
  intro blocks
  induction blocks with
  | nil =>
    intro start ev hev
    exact absurd hev (List.not_mem_nil ev)
  | cons data rest ih =>
    intro start ev hev
    rw [visitBlocksTrace] at hev
    rcases List.mem_append.mp hev with hev | hev
    · rcases List.mem_cons.mp hev with hev | hev
      · exact Or.inl ⟨start, hev⟩
      · rcases mem_super_basic_block_data_trace start data ev hev with ⟨i, hi⟩ | ⟨i, hi⟩
        · exact Or.inr (Or.inl ⟨start, i, hi⟩)
        · exact Or.inr (Or.inr ⟨start, i, hi⟩)
    · exact ih (start + 1) ev hev

theorem mem_visitScopesTrace :
    ∀ (scopes : List VisibilityScopeDataV) (start : Nat), ∀ ev ∈ visitScopesTrace start scopes,
      ∃ s, ev = VisitEvent.visitVisibilityScopeData s := by
  intro scopes
  induction scopes with
  | nil =>
    intro start ev hev
    exact absurd hev (List.not_mem_nil ev)
  | cons sc rest ih =>
    intro start ev hev
    rw [visitScopesTrace] at hev
    rcases List.mem_cons.mp hev with hev | hev
    · exact ⟨start, hev⟩
    · exact ih (start + 1) ev hev

theorem mem_visitLocalDeclsTrace :
    ∀ (decls : List Ty) (start : Nat), ∀ ev ∈ visitLocalDeclsTrace start decls,
      ∃ l, ev = VisitEvent.visitLocalDecl l := by
  intro decls
  induction decls with
  | nil =>
    intro start ev hev
    exact absurd hev (List.not_mem_nil ev)
  | cons d rest ih =>
    intro start ev hev
    rw [visitLocalDeclsTrace] at hev
    rcases List.mem_cons.mp hev with hev | hev
    · exact ⟨start, hev⟩
    · exact ih (start + 1) ev hev

theorem count_visitBlocksTrace_basicBlockData :
    ∀ (blocks : List BasicBlockDataV) (start b : Nat),
      (visitBlocksTrace start blocks).count (VisitEvent.visitBasicBlockData b) =
        if start ≤ b ∧ b < start + blocks.length then 1 else 0 := by
  intro blocks
  induction blocks with
  | nil =>
    intro start b
    rw [visitBlocksTrace, List.count_nil, if_neg (by simp only [List.length_nil]; omega)]
  | cons data rest ih =>
    intro start b
    rw [visitBlocksTrace, List.count_append, List.count_cons]
    have hz : (super_basic_block_data_trace start data).count
        (VisitEvent.visitBasicBlockData b) = 0 := by
      rw [List.count_eq_zero]
      intro hmem
      rcases mem_super_basic_block_data_trace start data _ hmem with ⟨i, hi⟩ | ⟨i, hi⟩ <;>
        simp at hi
    rw [hz, ih (start + 1) b]
    simp only [beq_iff_eq, VisitEvent.visitBasicBlockData.injEq, List.length_cons]
    split_ifs <;> omega

theorem count_visitScopesTrace_scopeData :
    ∀ (scopes : List VisibilityScopeDataV) (start s : Nat),
      (visitScopesTrace start scopes).count (VisitEvent.visitVisibilityScopeData s) =
        if start ≤ s ∧ s < start + scopes.length then 1 else 0 := by
  intro scopes
  induction scopes with
  | nil =>
    intro start s
    rw [visitScopesTrace, List.count_nil, if_neg (by simp only [List.length_nil]; omega)]
  | cons sc rest ih =>
    intro start s
    rw [visitScopesTrace, List.count_cons, ih (start + 1) s]
    simp only [beq_iff_eq, VisitEvent.visitVisibilityScopeData.injEq, List.length_cons]
    split_ifs <;> omega

theorem count_visitLocalDeclsTrace_localDecl :
    ∀ (decls : List Ty) (start l : Nat),
      (visitLocalDeclsTrace start decls).count (VisitEvent.visitLocalDecl l) =
        if start ≤ l ∧ l < start + decls.length then 1 else 0 := by
  intro decls
  induction decls with
  | nil =>
    intro start l
    rw [visitLocalDeclsTrace, List.count_nil, if_neg (by simp only [List.length_nil]; omega)]
  | cons d rest ih =>
    intro start l
    rw [visitLocalDeclsTrace, List.count_cons, ih (start + 1) l]
    simp only [beq_iff_eq, VisitEvent.visitLocalDecl.injEq, List.length_cons]
    split_ifs <;> omega

/-- C7 (confirmed). The default structural traversal is exhaustive and
deterministic: `super_basic_block_data` visits each statement exactly once,
in index order, at a location whose statement index is the statement's
position, then visits the terminator (when present) exactly once at
statement index equal to the number of statements; and `super_mir` visits
every basic block, every visibility scope, the return type, every local
declaration, and the span, each exactly once. -/
theorem default_traversal_visits_each_child_once (mir : MirV) (block : Nat)
    (data : BasicBlockDataV) :
    super_basic_block_data_trace block data =
      (List.range data.statements.length).map
          (fun i => VisitEvent.visitStatement block i) ++
        (match data.terminator with
         | some _ => [VisitEvent.visitTerminator block data.statements.length]
         | none => []) ∧
    (∀ b, (super_mir_trace mir).count (VisitEvent.visitBasicBlockData b) =
      if b < mir.basicBlocks.length then 1 else 0) ∧
    (∀ s, (super_mir_trace mir).count (VisitEvent.visitVisibilityScopeData s) =
      if s < mir.visibilityScopes.length then 1 else 0) ∧
    (super_mir_trace mir).count VisitEvent.visitReturnTy = 1 ∧
    (∀ l, (super_mir_trace mir).count (VisitEvent.visitLocalDecl l) =
      if l < mir.localDecls.length then 1 else 0) ∧
    (super_mir_trace mir).count VisitEvent.visitSpan = 1 := by
  refine ⟨super_basic_block_data_trace_eq block data, ?_, ?_, ?_, ?_, ?_⟩
  · intro b
    rw [super_mir_trace, List.count_append, List.count_append, List.count_append,
      List.count_append]
    have h1 := count_visitBlocksTrace_basicBlockData mir.basicBlocks 0 b
    have h2 : (visitScopesTrace 0 mir.visibilityScopes).count
        (VisitEvent.visitBasicBlockData b) = 0 := by
      rw [List.count_eq_zero]
      intro hmem
      obtain ⟨s, hs⟩ := mem_visitScopesTrace _ 0 _ hmem
      simp at hs
    have h4 : (visitLocalDeclsTrace 0 mir.localDecls).count
        (VisitEvent.visitBasicBlockData b) = 0 := by
      rw [List.count_eq_zero]
      intro hmem
      obtain ⟨l, hl⟩ := mem_visitLocalDeclsTrace _ 0 _ hmem
      simp at hl
    rw [h1, h2, h4]
    simp only [List.count_cons, List.count_nil, beq_iff_eq]
    split_ifs <;> simp_all
  · intro s
    rw [super_mir_trace, List.count_append, List.count_append, List.count_append,
      List.count_append]
    have h1 : (visitBlocksTrace 0 mir.basicBlocks).count
        (VisitEvent.visitVisibilityScopeData s) = 0 := by
      rw [List.count_eq_zero]
      intro hmem
      rcases mem_visitBlocksTrace _ 0 _ hmem with ⟨b, hb⟩ | ⟨b, i, hb⟩ | ⟨b, i, hb⟩ <;>
        simp at hb
    have h2 := count_visitScopesTrace_scopeData mir.visibilityScopes 0 s
    have h4 : (visitLocalDeclsTrace 0 mir.localDecls).count
        (VisitEvent.visitVisibilityScopeData s) = 0 := by
      rw [List.count_eq_zero]
      intro hmem
      obtain ⟨l, hl⟩ := mem_visitLocalDeclsTrace _ 0 _ hmem
      simp at hl
    rw [h1, h2, h4]
    simp only [List.count_cons, List.count_nil, beq_iff_eq]
    split_ifs <;> simp_all
  · rw [super_mir_trace, List.count_append, List.count_append, List.count_append,
      List.count_append]
    have h1 : (visitBlocksTrace 0 mir.basicBlocks).count VisitEvent.visitReturnTy = 0 := by
      rw [List.count_eq_zero]
      intro hmem
      rcases mem_visitBlocksTrace _ 0 _ hmem with ⟨b, hb⟩ | ⟨b, i, hb⟩ | ⟨b, i, hb⟩ <;>
        simp at hb
    have h2 : (visitScopesTrace 0 mir.visibilityScopes).count VisitEvent.visitReturnTy = 0 := by
      rw [List.count_eq_zero]
      intro hmem
      obtain ⟨s, hs⟩ := mem_visitScopesTrace _ 0 _ hmem
      simp at hs
    have h4 : (visitLocalDeclsTrace 0 mir.localDecls).count VisitEvent.visitReturnTy = 0 := by
      rw [List.count_eq_zero]
      intro hmem
      obtain ⟨l, hl⟩ := mem_visitLocalDeclsTrace _ 0 _ hmem
      simp at hl
    rw [h1, h2, h4]
    simp
  · intro l
    rw [super_mir_trace, List.count_append, List.count_append, List.count_append,
      List.count_append]
    have h1 : (visitBlocksTrace 0 mir.basicBlocks).count (VisitEvent.visitLocalDecl l) = 0 := by
      rw [List.count_eq_zero]
      intro hmem
      rcases mem_visitBlocksTrace _ 0 _ hmem with ⟨b, hb⟩ | ⟨b, i, hb⟩ | ⟨b, i, hb⟩ <;>
        simp at hb
    have h2 : (visitScopesTrace 0 mir.visibilityScopes).count (VisitEvent.visitLocalDecl l) = 0 := by
      rw [List.count_eq_zero]
      intro hmem
      obtain ⟨s, hs⟩ := mem_visitScopesTrace _ 0 _ hmem
      simp at hs
    have h4 := count_visitLocalDeclsTrace_localDecl mir.localDecls 0 l
    rw [h1, h2, h4]
    simp only [List.count_cons, List.count_nil, beq_iff_eq]
    split_ifs <;> simp_all
  · rw [super_mir_trace, List.count_append, List.count_append, List.count_append,
      List.count_append]
    have h1 : (visitBlocksTrace 0 mir.basicBlocks).count VisitEvent.visitSpan = 0 := by
      rw [List.count_eq_zero]
      intro hmem
      rcases mem_visitBlocksTrace _ 0 _ hmem with ⟨b, hb⟩ | ⟨b, i, hb⟩ | ⟨b, i, hb⟩ <;>
        simp at hb
    have h2 : (visitScopesTrace 0 mir.visibilityScopes).count VisitEvent.visitSpan = 0 := by
      rw [List.count_eq_zero]
      intro hmem
      obtain ⟨s, hs⟩ := mem_visitScopesTrace _ 0 _ hmem
      simp at hs
    have h4 : (visitLocalDeclsTrace 0 mir.localDecls).count VisitEvent.visitSpan = 0 := by
      rw [List.count_eq_zero]
      intro hmem
      obtain ⟨l, hl⟩ := mem_visitLocalDeclsTrace _ 0 _ hmem
      simp at hl
    rw [h1, h2, h4]
    simp
